import Mathlib

/-!
Verification of the annotated-markdown parser of `src/manim.py`
(`MarkdownCodeParser.parse_markdown`) and of the file locator
(`MarkdownCodeScene.load_markdown_file`).

The Python code is shallowly embedded over `List Char`.  The regular
expressions of the source are compiled by hand into executable scanners that
follow Python's backtracking semantics for the concrete patterns involved:

* `^#\s+(.*)` with `re.MULTILINE` (title extraction),
* `` ```(\w*)\s*(.*?)\n(.*?)``` `` with `re.DOTALL` (fence extraction),
* `@step(\d+)`, `@highlight\[(.*?)\]`, `@transform\[(.*?)\]`,
  `@isolate\[(.*?)\]` searched inside the annotation text.

Character classes `\w`, `\s`, `\d` are modelled at ASCII fidelity (the inputs
relevant to the claims are ASCII).  Exceptions escaping `parse_markdown`
(the `ValueError` raised by `dict(t.split('->') ...)` on an entry that does
not split into exactly two pieces) are modelled by `Option`: `none` means the
call raises.
-/

/-- Python's `\s` (ASCII range), also the whitespace stripped by `str.strip()`. -/
def pyWs (c : Char) : Bool :=
  c == ' ' || c == '\t' || c == '\n' || c == '\r' || c == '\x0b' || c == '\x0c'

/-- Python's `\w` (ASCII range): letters, digits and underscore. -/
def pyWord (c : Char) : Bool :=
  c.isAlphanum || c == '_'

/-- The backtick character, `` ` ``. -/
def tick : Char := Char.ofNat 96

/-- `str.strip()`: drop leading and trailing whitespace. -/
def pyStrip (l : List Char) : List Char :=
  (((l.dropWhile pyWs).reverse.dropWhile pyWs)).reverse

/-- Value of a digit string, as computed by Python's `int` on a `\d+` match. -/
def natOfDigits (l : List Char) : Nat :=
  l.foldl (fun n c => 10 * n + (c.toNat - 48)) 0

/-- Does the list start with three backticks (the literal ```` ``` ```` of the fence pattern)? -/
def isTriple : List Char → Bool
  | a :: b :: c :: _ => a == tick && b == tick && c == tick
  | _ => false

/-- Does the list contain an occurrence of three consecutive backticks? -/
def containsTriple : List Char → Bool
  | [] => false
  | c :: cs => isTriple (c :: cs) || containsTriple cs

/-- Split at the first occurrence of three backticks: `some (before, suffixAtTicks)`.
This is the lazy group `(.*?)` that ends at the closing ```` ``` ````. -/
def splitAtTriple : List Char → Option (List Char × List Char)
  | [] => none
  | c :: cs =>
    if isTriple (c :: cs) then some ([], c :: cs)
    else
      match splitAtTriple cs with
      | some (a, r) => some (c :: a, r)
      | none => none

/-- Split at the first newline: `some (before, after)`.  This is the lazy group
`(.*?)` followed by the literal `\n` of the fence pattern (laziness makes the
first viable newline win; with `re.DOTALL`, viability of a later newline
implies viability of an earlier one, so the first newline is the split point). -/
def splitFirstNl : List Char → Option (List Char × List Char)
  | [] => none
  | c :: cs =>
    if c == '\n' then some ([], cs)
    else
      match splitFirstNl cs with
      | some (a, r) => some (c :: a, r)
      | none => none

/-- One fenced region as matched by the fence regex: the captured language tag
(group 1), the annotation text (group 2) and the raw body (group 3). -/
structure RawFence where
  lang : List Char
  ann : List Char
  body : List Char
deriving DecidableEq

/-- Attempt the tail `(.*?)\n(.*?)```` `` of the fence pattern after dropping
`k` whitespace characters for `\s*`. -/
def attemptAt (u : List Char) (k : Nat) : Option (List Char × List Char × List Char) :=
  match splitFirstNl (u.drop k) with
  | none => none
  | some (a, r) =>
    match splitAtTriple r with
    | none => none
    | some (body, cl) => some (a, body, cl.drop 3)

/-- Greedy `\s*` with backtracking: try `k` whitespace characters first,
then fewer, until the rest of the pattern matches. -/
def tryWs (u : List Char) : Nat → Option (List Char × List Char × List Char)
  | 0 => attemptAt u 0
  | k + 1 =>
    match attemptAt u (k + 1) with
    | some res => some res
    | none => tryWs u k

/-- Try to match the fence pattern ```` ```(\w*)\s*(.*?)\n(.*?)``` ```` at the
head of `l`; on success return the fence and the rest of the input after the
closing backticks. -/
def fenceStep (l : List Char) : Option (RawFence × List Char) :=
  if isTriple l then
    let u0 := l.drop 3
    let lang := u0.takeWhile pyWord
    let u := u0.dropWhile pyWord
    match tryWs u (u.takeWhile pyWs).length with
    | some (a, body, rest) => some (⟨lang, a, body⟩, rest)
    | none => none
  else none

/-- `re.finditer` over the fence pattern: scan left to right; at a match,
resume after it, otherwise advance one character.  The fuel argument is the
length of the input, which suffices (see `scanFencesAux_fuel`). -/
def scanFencesAux : Nat → List Char → List RawFence
  | 0, _ => []
  | _ + 1, [] => []
  | fuel + 1, c :: cs =>
    match fenceStep (c :: cs) with
    | some (f, rest) => f :: scanFencesAux fuel rest
    | none => scanFencesAux fuel cs

/-- All fences of the input, in document order. -/
def scanFences (l : List Char) : List RawFence :=
  scanFencesAux l.length l

/-- Leftmost match of `tag` (a literal ending in `[`) followed by a lazy group
up to `]`; the group is `(.*?)` without `re.DOTALL`, so it cannot cross a
newline. -/
def bracketSearch (tag : List Char) : List Char → Option (List Char)
  | [] => none
  | c :: cs =>
    if tag.isPrefixOf (c :: cs) then
      let line := ((c :: cs).drop tag.length).takeWhile (fun d => d != '\n')
      if line.any (fun d => d == ']') then some (line.takeWhile (fun d => d != ']'))
      else bracketSearch tag cs
    else bracketSearch tag cs

/-- Leftmost match of `@step(\d+)`: the first position where the literal
`@step` is followed by at least one digit; the greedy `\d+` takes the maximal
digit run there. -/
def stepSearch : List Char → Option Nat
  | [] => none
  | c :: cs =>
    if "@step".toList.isPrefixOf (c :: cs)
        && (((c :: cs).drop 5).headD ' ').isDigit then
      some (natOfDigits (((c :: cs).drop 5).takeWhile Char.isDigit))
    else stepSearch cs

/-- Python `str.split(sep)` for `sep = ","`. -/
def splitComma : List Char → List (List Char)
  | [] => [[]]
  | c :: cs =>
    if c == ',' then [] :: splitComma cs
    else
      match splitComma cs with
      | p :: ps => (c :: p) :: ps
      | [] => [[c]]

/-- Python `str.split(sep)` for `sep = "->"` (split at every occurrence). -/
def splitArrow : List Char → List (List Char)
  | [] => [[]]
  | '-' :: '>' :: cs => [] :: splitArrow cs
  | c :: cs =>
    match splitArrow cs with
    | p :: ps => (c :: p) :: ps
    | [] => [[c]]

/-- One entry of the `@transform[...]` payload, as consumed by
`dict(t.split('->') for t in ...)`: `dict` requires `t.split('->')` to have
exactly two pieces and raises `ValueError` otherwise (modelled by `none`). -/
def entryPair (t : List Char) : Option (String × String) :=
  match splitArrow t with
  | [a, b] => some (String.mk a, String.mk b)
  | _ => none

/-- Python `dict` insertion: an existing key keeps its position and gets the
new value, a new key is appended. -/
def dictInsert (k v : String) : List (String × String) → List (String × String)
  | [] => [(k, v)]
  | (k', v') :: d => if k' == k then (k, v) :: d else (k', v') :: dictInsert k v d

/-- Build the dict from the split entries, left to right; `none` if some entry
does not split into exactly two pieces (the `ValueError` of `dict(...)`). -/
def dictBuild (acc : List (String × String)) : List (List Char) → Option (List (String × String))
  | [] => some acc
  | t :: ts =>
    match entryPair t with
    | none => none
    | some (k, v) => dictBuild (dictInsert k v acc) ts

/-- `dict(t.split('->') for t in payload.split(','))`. -/
def dictOfEntries (ts : List (List Char)) : Option (List (String × String)) :=
  dictBuild [] ts

/-- One parsed code block: exactly the keys the source puts in its dict. -/
structure CodeBlock where
  language : Option String
  code : String
  step : Nat
  highlights : List String
  transforms : List (String × String)
  isolate : List String
deriving DecidableEq

/-- The block record built for a fence, given the (already computed)
transforms dict. -/
def blockFields (f : RawFence) (tr : List (String × String)) : CodeBlock :=
  { language := if f.lang.isEmpty then none else some (String.mk f.lang)
    code := String.mk (pyStrip f.body)
    step := (stepSearch f.ann).getD 0
    highlights :=
      match bracketSearch "@highlight[".toList f.ann with
      | some p => (splitComma p).map String.mk
      | none => []
    transforms := tr
    isolate :=
      match bracketSearch "@isolate[".toList f.ann with
      | some p => (splitComma p).map String.mk
      | none => [] }

/-- Process one fence into a block; `none` when the `@transform[...]` payload
makes `dict(...)` raise `ValueError`. -/
def mkBlock (f : RawFence) : Option CodeBlock :=
  match bracketSearch "@transform[".toList f.ann with
  | some p => (dictOfEntries (splitComma p)).map (blockFields f)
  | none => some (blockFields f [])

/-- The `code_blocks` list in document order; `none` as soon as a block raises. -/
def buildBlocks : List RawFence → Option (List CodeBlock)
  | [] => some []
  | f :: fs =>
    match mkBlock f with
    | none => none
    | some b =>
      match buildBlocks fs with
      | none => none
      | some bs => some (b :: bs)

/-- Stable insertion by `step`: the new block goes before the first block with
a step that is not smaller. -/
def insertBlock (b : CodeBlock) : List CodeBlock → List CodeBlock
  | [] => [b]
  | c :: cs => if b.step ≤ c.step then b :: c :: cs else c :: insertBlock b cs

/-- `sorted(code_blocks, key=lambda x: x['step'])`: Python's sort is stable;
stable sorts agree extensionally, so the embedding uses a stable insertion
sort. -/
def sortBlocks : List CodeBlock → List CodeBlock
  | [] => []
  | b :: bs => insertBlock b (sortBlocks bs)

/-- The title scan `re.search(r"^#\s+(.*)", content, re.MULTILINE)`: the first
line-start `#` followed by at least one whitespace character matches; greedy
`\s+` takes the maximal whitespace run (which may cross newlines), and `(.*)`
captures up to the next newline.  Returns group 1. -/
def titleScan : Bool → List Char → Option (List Char)
  | _, [] => none
  | atStart, c :: cs =>
    if atStart && c == '#' && pyWs (cs.headD 'x') then
      some ((cs.dropWhile pyWs).takeWhile (fun d => d != '\n'))
    else titleScan (c == '\n') cs

/-- `title_match.group(1).strip() if title_match else None`. -/
def pyTitle (l : List Char) : Option String :=
  (titleScan true l).map (fun g => String.mk (pyStrip g))

/-- The parse result: the dict `{"title": ..., "code_blocks": ...}`. -/
structure Document where
  title : Option String
  blocks : List CodeBlock
deriving DecidableEq

/-- `MarkdownCodeParser.parse_markdown`; `none` means the call raises
(`ValueError` from a malformed `@transform[...]` entry). -/
def parse_markdown (content : String) : Option Document :=
  match buildBlocks (scanFences content.toList) with
  | none => none
  | some raw => some { title := pyTitle content.toList, blocks := sortBlocks raw }

/-! ### The richer annotation variant, modelled from the spec

The spec (sections 3 and 4) also documents fields `use_transform`, `wait`,
`use_write` and `fontsize` of "the richer variant" of the parser.  The code
under `src/` does not contain that variant, so the extraction of these fields
is modelled from the spec's words. -/

/-- Python `str.split(sep)` for `sep = "."`. -/
def splitDot : List Char → List (List Char)
  | [] => [[]]
  | c :: cs =>
    if c == '.' then [] :: splitDot cs
    else
      match splitDot cs with
      | p :: ps => (c :: p) :: ps
      | [] => [[c]]

/-- Split once at the first `->`: `some (key, value)`, `none` when no `->`
occurs. -/
def splitOnceArrow : List Char → Option (List Char × List Char)
  | [] => none
  | '-' :: '>' :: cs => some ([], cs)
  | c :: cs =>
    match splitOnceArrow cs with
    | some (a, b) => some (c :: a, b)
    | none => none

/-- Does `pat` occur as a contiguous substring? -/
def hasSub (pat : List Char) : List Char → Bool
  | [] => pat.isPrefixOf []
  | c :: cs => pat.isPrefixOf (c :: cs) || hasSub pat cs

/-- Modelled from the spec: "`@wait[...]` → parse as floating-point".  Floats
are modelled as rationals; the accepted shapes are `digits` and
`digits.digits` (exact for the values the spec mentions, `1.5` and `3.0`). -/
def parseDec (l : List Char) : Option Rat :=
  match splitDot l with
  | [a] =>
    if !a.isEmpty && a.all Char.isDigit then some (natOfDigits a) else none
  | [a, b] =>
    if !a.isEmpty && a.all Char.isDigit && !b.isEmpty && b.all Char.isDigit then
      some ((natOfDigits a : Rat) + (natOfDigits b : Rat) / (10 : Rat) ^ b.length)
    else none
  | _ => none

/-- Modelled from the spec: the block metadata of the richer variant
(spec section 3), with the fields missing from `src/manim.py`. -/
structure SpecAnnots where
  step : Nat
  highlights : List String
  transforms : List (String × String)
  use_transform : Bool
  isolate : List String
  wait : Rat
  use_write : Bool
  fontsize : Nat
deriving DecidableEq

/-- Modelled from the spec: one `@transform[...]` entry of the richer variant,
"each piece split once on `->` into key/value"; a piece with no `->` is a
malformed entry and is skipped ("recommended: skip malformed entries"). -/
def specPair (t : List Char) : Option (String × String) :=
  (splitOnceArrow t).map (fun p => (String.mk p.1, String.mk p.2))

/-- Modelled from the spec (section 4, step 4): the richer variant's
annotation extraction.  The bracketed `@transform[...]` form is checked first;
only when no bracket payload is found does a bare `@transform` set the
`use_transform` flag.  `@wait[...]` defaults to `1.5`, `@fontsize[N]` defaults
to `24` (a non-numeric payload is modelled as falling back to the default);
`@write` is a bare flag. -/
def specExtract (a : List Char) : SpecAnnots :=
  let tb := bracketSearch "@transform[".toList a
  { step := (stepSearch a).getD 0
    highlights :=
      match bracketSearch "@highlight[".toList a with
      | some p => (splitComma p).map String.mk
      | none => []
    transforms :=
      match tb with
      | some p => (splitComma p).filterMap specPair
      | none => []
    use_transform := tb.isNone && hasSub "@transform".toList a
    isolate :=
      match bracketSearch "@isolate[".toList a with
      | some p => (splitComma p).map String.mk
      | none => []
    wait :=
      match bracketSearch "@wait[".toList a with
      | some p => (parseDec p).getD ((3 : Rat) / 2)
      | none => (3 : Rat) / 2
    use_write := hasSub "@write".toList a
    fontsize :=
      match bracketSearch "@fontsize[".toList a with
      | some p => if !p.isEmpty && p.all Char.isDigit then natOfDigits p else 24
      | none => 24 }

/-! ### The file locator (`MarkdownCodeScene.load_markdown_file`)

The path helpers of `os.path` and the filesystem are abstracted: `fs p` is
`some contents` when `p` is a readable regular file, `none` when it is not a
file or reading it raises `OSError`. -/

/-- The ambient path functions used to build the candidate list. -/
structure PathEnv where
  abspath : String → String
  cwd : String
  scriptDir : String
  joinPath : String → String → String
  expanduser : String → String

/-- The `search_paths` list of `load_markdown_file`, in source order. -/
def search_paths (env : PathEnv) (fp : String) : List String :=
  [fp, env.abspath fp, env.joinPath env.cwd fp,
   env.joinPath env.scriptDir fp, env.expanduser fp]

/-- The loop of `load_markdown_file`: return the contents of the first
candidate that is a readable file, else `None`. -/
def tryRead (fs : String → Option String) : List String → Option String
  | [] => none
  | p :: ps =>
    match fs p with
    | some c => some c
    | none => tryRead fs ps

/-- `MarkdownCodeScene.load_markdown_file`. -/
def load_markdown_file (env : PathEnv) (fs : String → Option String)
    (fp : String) : Option String :=
  tryRead fs (search_paths env fp)

/-! ### Basic lemmas about the scanners -/

theorem splitFirstNl_decomp {l a r : List Char} (h : splitFirstNl l = some (a, r)) :
    l = a ++ '\n' :: r := by
  induction l generalizing a with
  | nil => simp [splitFirstNl] at h
  | cons c cs ih =>
    simp only [splitFirstNl] at h
    split at h
    · next hc =>
      simp only [Option.some.injEq, Prod.mk.injEq] at h
      obtain ⟨rfl, rfl⟩ := h
      simp only [beq_iff_eq] at hc
      subst hc
      rfl
    · next hc =>
      cases hs : splitFirstNl cs with
      | none => rw [hs] at h; exact absurd h (by simp)
      | some p =>
        obtain ⟨a', r'⟩ := p
        rw [hs] at h
        simp only [Option.some.injEq, Prod.mk.injEq] at h
        obtain ⟨rfl, rfl⟩ := h
        simp [ih hs]

theorem splitFirstNl_length {l a r : List Char} (h : splitFirstNl l = some (a, r)) :
    r.length < l.length := by
  have := splitFirstNl_decomp h
  subst this
  simp
  omega

theorem splitAtTriple_decomp {l a r : List Char} (h : splitAtTriple l = some (a, r)) :
    l = a ++ r ∧ isTriple r = true := by
  induction l generalizing a with
  | nil => simp [splitAtTriple] at h
  | cons c cs ih =>
    simp only [splitAtTriple] at h
    split at h
    · next ht =>
      simp only [Option.some.injEq, Prod.mk.injEq] at h
      obtain ⟨rfl, rfl⟩ := h
      exact ⟨rfl, ht⟩
    · next ht =>
      cases hs : splitAtTriple cs with
      | none => rw [hs] at h; exact absurd h (by simp)
      | some p =>
        obtain ⟨a', r'⟩ := p
        rw [hs] at h
        simp only [Option.some.injEq, Prod.mk.injEq] at h
        obtain ⟨rfl, rfl⟩ := h
        obtain ⟨hd, htr⟩ := ih hs
        exact ⟨by simp [hd], htr⟩

theorem splitAtTriple_length {l a r : List Char} (h : splitAtTriple l = some (a, r)) :
    r.length ≤ l.length := by
  obtain ⟨hd, -⟩ := splitAtTriple_decomp h
  subst hd
  simp

theorem attemptAt_length {u : List Char} {k : Nat} {a b r : List Char}
    (h : attemptAt u k = some (a, b, r)) : r.length < u.length := by
  unfold attemptAt at h
  split at h
  · exact absurd h (by simp)
  · next a' r' hn =>
    split at h
    · exact absurd h (by simp)
    · next b' cl ht =>
      simp only [Option.some.injEq, Prod.mk.injEq] at h
      obtain ⟨rfl, rfl, rfl⟩ := h
      have h1 : r'.length < (u.drop k).length := splitFirstNl_length hn
      have h2 : cl.length ≤ r'.length := splitAtTriple_length ht
      have h3 : (u.drop k).length ≤ u.length := by simp
      have h4 : (cl.drop 3).length ≤ cl.length := by simp
      omega

theorem tryWs_length {u : List Char} {k : Nat} {a b r : List Char}
    (h : tryWs u k = some (a, b, r)) : r.length < u.length := by
  induction k with
  | zero => exact attemptAt_length h
  | succ k ih =>
    simp only [tryWs] at h
    split at h
    · next res ha =>
      simp only [Option.some.injEq] at h
      subst h
      exact attemptAt_length ha
    · exact ih h

theorem dropWhile_length_le (p : Char → Bool) (l : List Char) :
    (l.dropWhile p).length ≤ l.length := by
  induction l with
  | nil => simp
  | cons c cs ih =>
    by_cases hc : p c
    · simp only [List.dropWhile, hc]
      exact Nat.le_succ_of_le ih
    · simp only [List.dropWhile, hc]
      simp

theorem fenceStep_length {l : List Char} {f : RawFence} {rest : List Char}
    (h : fenceStep l = some (f, rest)) : rest.length < l.length := by
  unfold fenceStep at h
  split at h
  · next htr =>
    dsimp only at h
    split at h
    · next a' b' r' ht =>
      simp only [Option.some.injEq, Prod.mk.injEq] at h
      obtain ⟨rfl, rfl⟩ := h
      have h1 : r'.length < ((l.drop 3).dropWhile pyWord).length := tryWs_length ht
      have h2 : ((l.drop 3).dropWhile pyWord).length ≤ (l.drop 3).length :=
        dropWhile_length_le pyWord (l.drop 3)
      have h3 : (l.drop 3).length ≤ l.length := by simp
      omega
    · exact absurd h (by simp)
  · exact absurd h (by simp)

/-- The fuel `l.length` used in `scanFences` is enough: any larger fuel gives
the same fence list, so the fuelled definition is the honest unbounded scan. -/
theorem scanFencesAux_fuel :
    ∀ (fuel₁ fuel₂ : Nat) (l : List Char), l.length ≤ fuel₁ → l.length ≤ fuel₂ →
      scanFencesAux fuel₁ l = scanFencesAux fuel₂ l := by
  intro fuel₁
  induction fuel₁ with
  | zero =>
    intro fuel₂ l h1 h2
    have : l = [] := List.length_eq_zero.mp (Nat.le_zero.mp h1)
    subst this
    cases fuel₂ <;> rfl
  | succ f ih =>
    intro fuel₂ l h1 h2
    cases l with
    | nil => cases fuel₂ <;> rfl
    | cons c cs =>
      cases fuel₂ with
      | zero => exact absurd h2 (by simp)
      | succ g =>
        simp only [scanFencesAux]
        cases hf : fenceStep (c :: cs) with
        | none =>
          dsimp only
          have hcs : cs.length ≤ f := by simp at h1; omega
          have hcs' : cs.length ≤ g := by simp at h2; omega
          rw [ih g cs hcs hcs']
        | some p =>
          obtain ⟨fe, rest⟩ := p
          dsimp only
          have hr := fenceStep_length hf
          simp only [List.length_cons] at hr h1 h2
          rw [ih g rest (by omega) (by omega)]

/-! ### Lemmas about the stable sort -/

theorem mem_insertBlock {b x : CodeBlock} {l : List CodeBlock} :
    x ∈ insertBlock b l ↔ x = b ∨ x ∈ l := by
  induction l with
  | nil => simp [insertBlock]
  | cons c cs ih =>
    by_cases hb : b.step ≤ c.step
    · simp [insertBlock, hb]
    · simp only [insertBlock, if_neg hb, List.mem_cons, ih]
      tauto

theorem mem_sortBlocks {x : CodeBlock} {l : List CodeBlock} :
    x ∈ sortBlocks l ↔ x ∈ l := by
  induction l with
  | nil => simp [sortBlocks]
  | cons b bs ih => simp [sortBlocks, mem_insertBlock, ih]

theorem pairwise_insertBlock {b : CodeBlock} {l : List CodeBlock}
    (h : l.Pairwise (fun x y => x.step ≤ y.step)) :
    (insertBlock b l).Pairwise (fun x y => x.step ≤ y.step) := by
  induction l with
  | nil => simp [insertBlock]
  | cons c cs ih =>
    rw [List.pairwise_cons] at h
    obtain ⟨hc, hcs⟩ := h
    by_cases hb : b.step ≤ c.step
    · rw [insertBlock, if_pos hb, List.pairwise_cons]
      refine ⟨?_, List.pairwise_cons.mpr ⟨hc, hcs⟩⟩
      intro x hx
      rcases List.mem_cons.mp hx with rfl | hx
      · exact hb
      · exact Nat.le_trans hb (hc x hx)
    · rw [insertBlock, if_neg hb, List.pairwise_cons]
      refine ⟨?_, ih hcs⟩
      intro x hx
      rcases mem_insertBlock.mp hx with rfl | hx
      · omega
      · exact hc x hx

theorem pairwise_sortBlocks (l : List CodeBlock) :
    (sortBlocks l).Pairwise (fun x y => x.step ≤ y.step) := by
  induction l with
  | nil => simp [sortBlocks]
  | cons b bs ih => exact pairwise_insertBlock ih

theorem filter_insertBlock (s : Nat) (b : CodeBlock) (l : List CodeBlock) :
    (insertBlock b l).filter (fun x => x.step == s) =
      if b.step == s then b :: l.filter (fun x => x.step == s)
      else l.filter (fun x => x.step == s) := by
  induction l with
  | nil => simp [insertBlock, List.filter_cons]
  | cons c cs ih =>
    simp only [insertBlock]
    by_cases hb : b.step ≤ c.step
    · rw [if_pos hb]
      by_cases hbs : b.step = s
      · simp [List.filter_cons, hbs]
      · simp [List.filter_cons, hbs]
    · rw [if_neg hb]
      have hlt : c.step < b.step := Nat.lt_of_not_le hb
      by_cases hbs : b.step = s
      · have hcs : ¬ c.step = s := by omega
        simp [List.filter_cons, ih, hbs, hcs]
      · by_cases hcs : c.step = s
        · simp [List.filter_cons, ih, hbs, hcs]
        · simp [List.filter_cons, ih, hbs, hcs]

theorem filter_sortBlocks (s : Nat) (l : List CodeBlock) :
    (sortBlocks l).filter (fun x => x.step == s) = l.filter (fun x => x.step == s) := by
  induction l with
  | nil => rfl
  | cons b bs ih =>
    rw [sortBlocks, filter_insertBlock]
    by_cases hbs : b.step = s
    · simp [List.filter_cons, hbs, ih]
    · simp [List.filter_cons, hbs, ih]

/-! ### Lemmas about `buildBlocks`, `dictBuild` and `mkBlock` -/

theorem buildBlocks_none {fs : List RawFence} :
    buildBlocks fs = none ↔ ∃ f ∈ fs, mkBlock f = none := by
  induction fs with
  | nil => simp [buildBlocks]
  | cons f fs ih =>
    rw [buildBlocks]
    cases hm : mkBlock f with
    | none =>
      exact ⟨fun _ => ⟨f, List.mem_cons_self f fs, hm⟩, fun _ => rfl⟩
    | some b =>
      cases hb : buildBlocks fs with
      | none =>
        obtain ⟨g, hg, hgn⟩ := ih.mp hb
        exact ⟨fun _ => ⟨g, List.mem_cons_of_mem f hg, hgn⟩, fun _ => rfl⟩
      | some bs =>
        constructor
        · intro h; exact absurd h (by simp)
        · rintro ⟨g, hg, hgn⟩
          rcases List.mem_cons.mp hg with rfl | hg
          · rw [hm] at hgn; exact absurd hgn (by simp)
          · have hn := ih.mpr ⟨g, hg, hgn⟩
            rw [hn] at hb
            exact absurd hb (by simp)

theorem buildBlocks_mem {fs : List RawFence} {raw : List CodeBlock}
    (h : buildBlocks fs = some raw) {b : CodeBlock} (hb : b ∈ raw) :
    ∃ f ∈ fs, mkBlock f = some b := by
  induction fs generalizing raw with
  | nil =>
    simp only [buildBlocks, Option.some.injEq] at h
    subst h
    simp at hb
  | cons f fs ih =>
    rw [buildBlocks] at h
    cases hm : mkBlock f with
    | none => rw [hm] at h; exact absurd h (by simp)
    | some c =>
      rw [hm] at h
      cases hrest : buildBlocks fs with
      | none => rw [hrest] at h; exact absurd h (by simp)
      | some bs =>
        rw [hrest] at h
        simp only [Option.some.injEq] at h
        subst h
        rcases List.mem_cons.mp hb with rfl | hb
        · exact ⟨f, List.mem_cons_self f fs, hm⟩
        · obtain ⟨g, hg, hgm⟩ := ih hrest hb
          exact ⟨g, List.mem_cons_of_mem f hg, hgm⟩

theorem buildBlocks_all {fs : List RawFence} {raw : List CodeBlock}
    (h : buildBlocks fs = some raw) {f : RawFence} (hf : f ∈ fs) :
    ∃ b ∈ raw, mkBlock f = some b := by
  induction fs generalizing raw with
  | nil => simp at hf
  | cons g gs ih =>
    rw [buildBlocks] at h
    cases hm : mkBlock g with
    | none => rw [hm] at h; exact absurd h (by simp)
    | some c =>
      rw [hm] at h
      cases hrest : buildBlocks gs with
      | none => rw [hrest] at h; exact absurd h (by simp)
      | some bs =>
        rw [hrest] at h
        simp only [Option.some.injEq] at h
        subst h
        rcases List.mem_cons.mp hf with rfl | hf
        · exact ⟨c, List.mem_cons_self c bs, hm⟩
        · obtain ⟨b, hb, hbm⟩ := ih hrest hf
          exact ⟨b, List.mem_cons_of_mem c hb, hbm⟩

theorem dictBuild_none {ts : List (List Char)} :
    ∀ acc, dictBuild acc ts = none ↔ ∃ t ∈ ts, entryPair t = none := by
  induction ts with
  | nil => intro acc; simp [dictBuild]
  | cons t ts ih =>
    intro acc
    rw [dictBuild]
    cases he : entryPair t with
    | none => simp [he]
    | some p =>
      obtain ⟨k, v⟩ := p
      constructor
      · intro h
        obtain ⟨g, hg, hgn⟩ := (ih _).mp h
        exact ⟨g, List.mem_cons_of_mem t hg, hgn⟩
      · rintro ⟨g, hg, hgn⟩
        rcases List.mem_cons.mp hg with rfl | hg
        · rw [he] at hgn; exact absurd hgn (by simp)
        · exact (ih _).mpr ⟨g, hg, hgn⟩

theorem mkBlock_none {f : RawFence} :
    mkBlock f = none ↔
      ∃ p, bracketSearch "@transform[".toList f.ann = some p ∧
        ∃ t ∈ splitComma p, entryPair t = none := by
  rw [mkBlock]
  cases hb : bracketSearch "@transform[".toList f.ann with
  | none =>
    constructor
    · intro h; exact absurd h (by simp)
    · rintro ⟨p, hp, -⟩; exact absurd hp (by simp)
  | some p =>
    dsimp only
    rw [dictOfEntries]
    cases hd : dictBuild [] (splitComma p) with
    | none =>
      constructor
      · intro _
        exact ⟨p, rfl, (dictBuild_none _).mp hd⟩
      · intro _
        rfl
    | some d =>
      constructor
      · intro h
        exact absurd h (by simp)
      · rintro ⟨q, hq, ht⟩
        obtain rfl : p = q := Option.some.inj hq
        rw [(dictBuild_none _).mpr ht] at hd
        exact absurd hd (by simp)

/-! ### The body of a fence never contains three backticks -/

theorem isTriple_append {l r : List Char} (h : isTriple l = true) :
    isTriple (l ++ r) = true := by
  cases l with
  | nil => simp [isTriple] at h
  | cons a t1 =>
    cases t1 with
    | nil => simp [isTriple] at h
    | cons b t2 =>
      cases t2 with
      | nil => simp [isTriple] at h
      | cons c t3 => simpa [isTriple] using h

theorem splitAtTriple_before {l a r : List Char} (h : splitAtTriple l = some (a, r)) :
    containsTriple a = false := by
  induction l generalizing a r with
  | nil => simp [splitAtTriple] at h
  | cons c cs ih =>
    simp only [splitAtTriple] at h
    split at h
    · next ht =>
      simp only [Option.some.injEq, Prod.mk.injEq] at h
      obtain ⟨rfl, rfl⟩ := h
      rfl
    · next ht =>
      cases hs : splitAtTriple cs with
      | none => rw [hs] at h; exact absurd h (by simp)
      | some p =>
        obtain ⟨a2, r2⟩ := p
        rw [hs] at h
        simp only [Option.some.injEq, Prod.mk.injEq] at h
        obtain ⟨ha, -⟩ := h
        subst ha
        have h1 : containsTriple a2 = false := ih hs
        have h2 : isTriple (c :: a2) = false := by
          cases hx : isTriple (c :: a2) with
          | false => rfl
          | true =>
            exfalso
            obtain ⟨hd, -⟩ := splitAtTriple_decomp hs
            have hT : isTriple ((c :: a2) ++ r2) = true := isTriple_append hx
            rw [List.cons_append, ← hd] at hT
            exact ht hT
        rw [containsTriple, h1, h2]
        rfl

theorem isTriple_iff {l : List Char} :
    isTriple l = true ↔ ∃ t, l = tick :: tick :: tick :: t := by
  cases l with
  | nil => simp [isTriple]
  | cons a t1 =>
    cases t1 with
    | nil => simp [isTriple]
    | cons b t2 =>
      cases t2 with
      | nil => simp [isTriple]
      | cons c t =>
        constructor
        · intro hx
          simp only [isTriple, Bool.and_eq_true, beq_iff_eq] at hx
          obtain ⟨⟨rfl, rfl⟩, rfl⟩ := hx
          exact ⟨t, rfl⟩
        · rintro ⟨t', ht⟩
          simp only [List.cons.injEq] at ht
          obtain ⟨rfl, rfl, rfl, rfl⟩ := ht
          simp [isTriple]

theorem containsTriple_iff {l : List Char} :
    containsTriple l = true ↔ ∃ x y, l = x ++ tick :: tick :: tick :: y := by
  induction l with
  | nil =>
    constructor
    · intro h; simp [containsTriple] at h
    · rintro ⟨x, y, hx⟩
      exact absurd hx.symm (by simp)
  | cons c cs ih =>
    rw [containsTriple, Bool.or_eq_true, isTriple_iff, ih]
    constructor
    · rintro (⟨t, ht⟩ | ⟨x, y, hx⟩)
      · exact ⟨[], t, ht⟩
      · exact ⟨c :: x, y, by simp [hx]⟩
    · rintro ⟨x, y, hx⟩
      cases x with
      | nil => exact Or.inl ⟨y, by simpa using hx⟩
      | cons d xs =>
        simp only [List.cons_append, List.cons.injEq] at hx
        exact Or.inr ⟨xs, y, hx.2⟩

theorem containsTriple_dropWhile {p : Char → Bool} {l : List Char}
    (h : containsTriple l = false) : containsTriple (l.dropWhile p) = false := by
  induction l with
  | nil => simpa using h
  | cons c cs ih =>
    have h1 : containsTriple cs = false := by
      cases hx : containsTriple cs with
      | false => rfl
      | true => rw [containsTriple, hx] at h; simp at h
    rw [List.dropWhile_cons]
    cases hp : p c with
    | true => simpa [hp] using ih h1
    | false => simpa [hp] using h

theorem containsTriple_reverse {l : List Char} (h : containsTriple l = false) :
    containsTriple l.reverse = false := by
  cases hx : containsTriple l.reverse with
  | false => rfl
  | true =>
    exfalso
    obtain ⟨x, y, hxy⟩ := containsTriple_iff.mp hx
    have hl : l = y.reverse ++ tick :: tick :: tick :: x.reverse := by
      have h2 := congrArg List.reverse hxy
      rw [List.reverse_reverse] at h2
      simpa [List.reverse_append] using h2
    have h3 : containsTriple l = true := containsTriple_iff.mpr ⟨y.reverse, x.reverse, hl⟩
    rw [h3] at h
    exact absurd h (by simp)

theorem containsTriple_pyStrip {l : List Char} (h : containsTriple l = false) :
    containsTriple (pyStrip l) = false := by
  unfold pyStrip
  exact containsTriple_reverse (containsTriple_dropWhile (containsTriple_reverse
    (containsTriple_dropWhile h)))

theorem attemptAt_body {u : List Char} {k : Nat} {a b r : List Char}
    (h : attemptAt u k = some (a, b, r)) : containsTriple b = false := by
  unfold attemptAt at h
  split at h
  · exact absurd h (by simp)
  · next a' r' hn =>
    split at h
    · exact absurd h (by simp)
    · next b' cl ht =>
      simp only [Option.some.injEq, Prod.mk.injEq] at h
      obtain ⟨rfl, rfl, rfl⟩ := h
      exact splitAtTriple_before ht

theorem tryWs_body {u : List Char} {k : Nat} {a b r : List Char}
    (h : tryWs u k = some (a, b, r)) : containsTriple b = false := by
  induction k with
  | zero => exact attemptAt_body h
  | succ k ih =>
    simp only [tryWs] at h
    split at h
    · next res ha =>
      simp only [Option.some.injEq] at h
      subst h
      exact attemptAt_body ha
    · exact ih h

theorem fenceStep_body {l : List Char} {f : RawFence} {rest : List Char}
    (h : fenceStep l = some (f, rest)) : containsTriple f.body = false := by
  unfold fenceStep at h
  split at h
  · dsimp only at h
    split at h
    · next a' b' r' ht =>
      simp only [Option.some.injEq, Prod.mk.injEq] at h
      obtain ⟨rfl, rfl⟩ := h
      exact tryWs_body ht
    · exact absurd h (by simp)
  · exact absurd h (by simp)

theorem scanFencesAux_body {fuel : Nat} {l : List Char} {f : RawFence}
    (h : f ∈ scanFencesAux fuel l) : containsTriple f.body = false := by
  induction fuel generalizing l with
  | zero => simp [scanFencesAux] at h
  | succ fuel ih =>
    cases l with
    | nil => simp [scanFencesAux] at h
    | cons c cs =>
      rw [scanFencesAux] at h
      split at h
      · next g rest hg =>
        rcases List.mem_cons.mp h with rfl | h
        · exact fenceStep_body hg
        · exact ih h
      · exact ih h

/-! ### Shape of the blocks produced by `mkBlock` -/

theorem mkBlock_shape {f : RawFence} {b : CodeBlock} (h : mkBlock f = some b) :
    ∃ tr, b = blockFields f tr := by
  rw [mkBlock] at h
  split at h
  · next p hp =>
    rcases Option.map_eq_some'.mp h with ⟨d, -, hd⟩
    exact ⟨d, hd.symm⟩
  · next hp =>
    exact ⟨[], (Option.some.inj h).symm⟩

/-! ### Structure of `parse_markdown` results -/

theorem parse_markdown_eq {content : String} {doc : Document}
    (h : parse_markdown content = some doc) :
    ∃ raw, buildBlocks (scanFences content.toList) = some raw ∧
      doc = ⟨pyTitle content.toList, sortBlocks raw⟩ := by
  rw [parse_markdown] at h
  cases hb : buildBlocks (scanFences content.toList) with
  | none => rw [hb] at h; exact absurd h (by simp)
  | some raw =>
    rw [hb] at h
    exact ⟨raw, rfl, (Option.some.inj h).symm⟩

theorem parse_markdown_none {content : String} :
    parse_markdown content = none ↔
      buildBlocks (scanFences content.toList) = none := by
  rw [parse_markdown]
  cases hb : buildBlocks (scanFences content.toList) with
  | none => simp
  | some raw => simp

/-! ### Lemmas about the file locator loop -/

theorem tryRead_none {fs : String → Option String} {ps : List String}
    (h : ∀ p ∈ ps, fs p = none) : tryRead fs ps = none := by
  induction ps with
  | nil => rfl
  | cons p ps ih =>
    rw [tryRead, h p (List.mem_cons_self p ps)]
    exact ih (fun q hq => h q (List.mem_cons_of_mem p hq))

theorem tryRead_first {fs : String → Option String} {ps₁ ps₂ : List String}
    {p : String} {c : String} (h1 : ∀ q ∈ ps₁, fs q = none) (h2 : fs p = some c) :
    tryRead fs (ps₁ ++ p :: ps₂) = some c := by
  induction ps₁ with
  | nil => rw [List.nil_append, tryRead, h2]
  | cons q qs ih =>
    rw [List.cons_append, tryRead, h1 q (List.mem_cons_self q qs)]
    exact ih (fun x hx => h1 x (List.mem_cons_of_mem q hx))

/-! ### Leftmost `@step` match at the head of the annotation text -/

theorem takeWhile_digits {ds r : List Char} (hds : ∀ c ∈ ds, c.isDigit = true)
    (hr : (r.headD ' ').isDigit = false) :
    (ds ++ r).takeWhile Char.isDigit = ds := by
  induction ds with
  | nil =>
    cases r with
    | nil => rfl
    | cons x xs =>
      simp only [List.headD_cons] at hr
      simp [List.takeWhile_cons, hr]
  | cons d ds ih =>
    have hd : d.isDigit = true := hds d (List.mem_cons_self d ds)
    rw [List.cons_append, List.takeWhile_cons, hd]
    rw [ih (fun c hc => hds c (List.mem_cons_of_mem d hc))]
    simp

theorem stepSearch_head {ds rest : List Char} (hne : ds ≠ [])
    (hds : ∀ c ∈ ds, c.isDigit = true) (hr : (rest.headD ' ').isDigit = false) :
    stepSearch ("@step".toList ++ (ds ++ rest)) = some (natOfDigits ds) := by
  obtain ⟨d, ds', rfl⟩ : ∃ d ds', ds = d :: ds' := by
    cases ds with
    | nil => exact absurd rfl hne
    | cons d ds' => exact ⟨d, ds', rfl⟩
  have hd : d.isDigit = true := hds d (List.mem_cons_self d ds')
  show stepSearch ('@' :: 's' :: 't' :: 'e' :: 'p' :: ((d :: ds') ++ rest)) = _
  rw [stepSearch]
  have hpre : "@step".toList.isPrefixOf
      ('@' :: 's' :: 't' :: 'e' :: 'p' :: ((d :: ds') ++ rest)) = true := by
    show List.isPrefixOf ['@', 's', 't', 'e', 'p'] _ = true
    simp [List.isPrefixOf]
  have hhead : ((('@' :: 's' :: 't' :: 'e' :: 'p' :: ((d :: ds') ++ rest)).drop 5).headD ' ').isDigit
      = true := by
    simpa using hd
  rw [if_pos (by rw [hpre, hhead]; rfl)]
  simp only [List.drop_succ_cons, List.drop_zero]
  rw [takeWhile_digits hds hr]

/-! ### The claims -/

/-- Claim C1, counterexample: the claim says a malformed `@transform[...]`
entry (no `->`) is skipped and a `Document` is still returned; on this input
the source instead raises `ValueError` from `dict(t.split('->') ...)`, so no
`Document` is returned. -/
theorem claim_C1_counterexample :
    parse_markdown "```x @transform[nope]\ncode\n```" = none := rfl

/-- Claim C1, amended: `parse_markdown` raises (returns no `Document`)
exactly when some fence's annotation text has an `@transform[...]` payload
with an entry that does not split into exactly two pieces on `->`; the entry
is not skipped and the rest of the document is not parsed. -/
theorem claim_C1_amended (content : String) :
    parse_markdown content = none ↔
      ∃ f ∈ scanFences content.toList, ∃ p,
        bracketSearch "@transform[".toList f.ann = some p ∧
          ∃ t ∈ splitComma p, entryPair t = none := by
  rw [parse_markdown_none, buildBlocks_none]
  constructor
  · rintro ⟨f, hf, hn⟩
    exact ⟨f, hf, mkBlock_none.mp hn⟩
  · rintro ⟨f, hf, hp⟩
    exact ⟨f, hf, mkBlock_none.mpr hp⟩

/-- Claim C2: whenever `parse_markdown` returns a `Document`, its blocks are
sorted non-decreasing by `step`, and for every step value the blocks with that
step appear in the same order as in the document-order block list (stable
sort). -/
theorem claim_C2 {content : String} {doc : Document} {raw : List CodeBlock}
    (hp : parse_markdown content = some doc)
    (hraw : buildBlocks (scanFences content.toList) = some raw) :
    doc.blocks.Pairwise (fun x y => x.step ≤ y.step) ∧
      ∀ s, doc.blocks.filter (fun b => b.step == s) =
        raw.filter (fun b => b.step == s) := by
  obtain ⟨raw2, hraw2, rfl⟩ := parse_markdown_eq hp
  rw [hraw2] at hraw
  obtain rfl : raw2 = raw := Option.some.inj hraw
  exact ⟨pairwise_sortBlocks raw2, fun s => filter_sortBlocks s raw2⟩

/-- Claim C2, witness: a document whose fences carry steps 2, 1, 1; the
returned blocks are sorted and the two step-1 blocks keep document order. -/
theorem claim_C2_witness :
    (Document.mk none
      [⟨some "b", "bar", 1, [], [], []⟩, ⟨some "c", "baz", 1, [], [], []⟩,
       ⟨some "a", "foo", 2, [], [], []⟩]).blocks.Pairwise
        (fun x y => x.step ≤ y.step) ∧
    (Document.mk none
      [⟨some "b", "bar", 1, [], [], []⟩, ⟨some "c", "baz", 1, [], [], []⟩,
       ⟨some "a", "foo", 2, [], [], []⟩]).blocks.filter (fun b => b.step == 1) =
      [⟨some "a", "foo", 2, [], [], []⟩, ⟨some "b", "bar", 1, [], [], []⟩,
       ⟨some "c", "baz", 1, [], [], []⟩].filter (fun b => b.step == 1) :=
  ⟨(@claim_C2 "```a @step2\nfoo\n```\n```b @step1\nbar\n```\n```c @step1\nbaz\n```"
      (Document.mk none
        [⟨some "b", "bar", 1, [], [], []⟩, ⟨some "c", "baz", 1, [], [], []⟩,
         ⟨some "a", "foo", 2, [], [], []⟩])
      [⟨some "a", "foo", 2, [], [], []⟩, ⟨some "b", "bar", 1, [], [], []⟩,
       ⟨some "c", "baz", 1, [], [], []⟩]
      rfl rfl).1,
   (@claim_C2 "```a @step2\nfoo\n```\n```b @step1\nbar\n```\n```c @step1\nbaz\n```"
      (Document.mk none
        [⟨some "b", "bar", 1, [], [], []⟩, ⟨some "c", "baz", 1, [], [], []⟩,
         ⟨some "a", "foo", 2, [], [], []⟩])
      [⟨some "a", "foo", 2, [], [], []⟩, ⟨some "b", "bar", 1, [], [], []⟩,
       ⟨some "c", "baz", 1, [], [], []⟩]
      rfl rfl).2 1⟩

theorem specExtract_use_transform (a : List Char) :
    (specExtract a).use_transform =
      ((bracketSearch "@transform[".toList a).isNone &&
        hasSub "@transform".toList a) := rfl

theorem specExtract_transforms (a : List Char) :
    (specExtract a).transforms =
      (match bracketSearch "@transform[".toList a with
       | some p => (splitComma p).filterMap specPair
       | none => []) := rfl

theorem specExtract_wait (a : List Char) :
    (specExtract a).wait =
      (match bracketSearch "@wait[".toList a with
       | some p => (parseDec p).getD ((3 : Rat) / 2)
       | none => (3 : Rat) / 2) := rfl

theorem specExtract_fontsize (a : List Char) :
    (specExtract a).fontsize =
      (match bracketSearch "@fontsize[".toList a with
       | some p => if !p.isEmpty && p.all Char.isDigit then natOfDigits p else 24
       | none => 24) := rfl

/-- Claim C3 (spec-modelled richer variant): a bracketed `@transform[k->v,...]`
tag populates `transforms` from the comma-separated `->` pairs and leaves
`use_transform` false; a bare `@transform` with no bracket payload sets
`use_transform` and leaves `transforms` empty. -/
theorem claim_C3 :
    (∀ (a : List Char) (p : List Char),
        bracketSearch "@transform[".toList a = some p →
          (specExtract a).use_transform = false ∧
          (specExtract a).transforms = (splitComma p).filterMap specPair) ∧
    (∀ a : List Char,
        bracketSearch "@transform[".toList a = none →
        hasSub "@transform".toList a = true →
          (specExtract a).use_transform = true ∧ (specExtract a).transforms = []) ∧
    (specExtract "@transform[x->y,a->b]".toList).transforms =
      [("x", "y"), ("a", "b")] ∧
    (specExtract "@transform[x->y,a->b]".toList).use_transform = false ∧
    (specExtract "@transform".toList).use_transform = true ∧
    (specExtract "@transform".toList).transforms = [] := by
  refine ⟨?_, ?_, by decide, by decide, by decide, by decide⟩
  · intro a p hp
    constructor
    · rw [specExtract_use_transform, hp]
      rfl
    · rw [specExtract_transforms, hp]
  · intro a hp hbare
    constructor
    · rw [specExtract_use_transform, hp, hbare]
      rfl
    · rw [specExtract_transforms, hp]

/-- Claim C3, witness: the two general parts applied at the spec's own
examples. -/
theorem claim_C3_witness :
    ((specExtract "@transform[x->y,a->b]".toList).use_transform = false ∧
      (specExtract "@transform[x->y,a->b]".toList).transforms =
        (splitComma "x->y,a->b".toList).filterMap specPair) ∧
    ((specExtract "@transform".toList).use_transform = true ∧
      (specExtract "@transform".toList).transforms = []) :=
  ⟨claim_C3.1 "@transform[x->y,a->b]".toList "x->y,a->b".toList rfl,
   claim_C3.2.1 "@transform".toList rfl rfl⟩

/-- Claim C4: every annotation field defaults when its tag is absent and
parsing never fails because an optional tag is missing.  For the fields of
`src/manim.py`: a fence whose annotation text has no `@step`, `@transform`,
`@highlight`, `@isolate` tag yields a block with `step = 0` and empty lists,
without raising.  For the richer variant's fields (spec-modelled): no `@wait`
gives `wait = 1.5`, `@wait[3.0]` gives `wait = 3.0`, no `@fontsize` gives
`fontsize = 24`. -/
theorem claim_C4 :
    (∀ a : List Char, bracketSearch "@wait[".toList a = none →
        (specExtract a).wait = 3 / 2) ∧
    (specExtract "@wait[3.0]".toList).wait = 3 ∧
    (∀ a : List Char, bracketSearch "@fontsize[".toList a = none →
        (specExtract a).fontsize = 24) ∧
    (∀ f : RawFence,
        stepSearch f.ann = none →
        bracketSearch "@transform[".toList f.ann = none →
        bracketSearch "@highlight[".toList f.ann = none →
        bracketSearch "@isolate[".toList f.ann = none →
        mkBlock f = some
          { language := if f.lang.isEmpty then none else some (String.mk f.lang)
            code := String.mk (pyStrip f.body)
            step := 0
            highlights := []
            transforms := []
            isolate := [] }) := by
  refine ⟨?_, ?_, ?_, ?_⟩
  · intro a hw
    rw [specExtract_wait, hw]
  · have hw : (specExtract "@wait[3.0]".toList).wait =
        (((3 : Nat) : Rat) + ((0 : Nat) : Rat) / (10 : Rat) ^ (1 : Nat)) := rfl
    rw [hw]
    norm_num
  · intro a hf
    rw [specExtract_fontsize, hf]
  · intro f hstep htr hhl hiso
    simp only [mkBlock, htr, blockFields, hstep, hhl, hiso, Option.getD_none]

/-- Claim C4, witness: the defaults at a concrete annotation text with no
tags, and a concrete tagless fence parsed without failure. -/
theorem claim_C4_witness :
    (specExtract "hello".toList).wait = 3 / 2 ∧
    (specExtract "hello".toList).fontsize = 24 ∧
    mkBlock ⟨"c".toList, "hello".toList, "body\n".toList⟩ = some
      { language := some "c", code := "body", step := 0,
        highlights := [], transforms := [], isolate := [] } :=
  ⟨claim_C4.1 "hello".toList rfl,
   claim_C4.2.2.1 "hello".toList rfl,
   claim_C4.2.2.2 ⟨"c".toList, "hello".toList, "body\n".toList⟩ rfl rfl rfl rfl⟩

/-- Claim C5, counterexample: on `"```csharp\nfoo\n```"` (annotation text
absent from the opening line) the greedy `\s*` of the fence regex eats the
newline and the first body line is captured as the annotation text, so the
block's `code` is `""`, not the body `"foo\n"` stripped (which is `"foo"`). -/
theorem claim_C5_counterexample :
    (parse_markdown "```csharp\nfoo\n```").map
        (fun d => d.blocks.map (fun b => b.code)) = some [""] ∧
    pyStrip "foo\n".toList = "foo".toList ∧ ("" : String) ≠ "foo" :=
  ⟨rfl, rfl, by decide⟩

/-- Claim C5, amended: every block's `code` is the regex's body capture
stripped of surrounding whitespace and never contains the ```` ``` ````
delimiter; it equals the fence body stripped when the opening line carries
annotation text after the language tag, but for a fence whose opening line
has nothing after the language tag the first body line is consumed as
annotation text and dropped from `code`. -/
theorem claim_C5_amended :
    (∀ (content : String) (doc : Document) (b : CodeBlock),
        parse_markdown content = some doc → b ∈ doc.blocks →
        containsTriple b.code.toList = false) ∧
    (parse_markdown "```csharp @step1\n  foo bar \n```").map
        (fun d => d.blocks.map (fun b => b.code)) = some ["foo bar"] := by
  constructor
  · intro content doc b hp hb
    obtain ⟨raw, hraw, rfl⟩ := parse_markdown_eq hp
    have hb2 : b ∈ raw := mem_sortBlocks.mp hb
    obtain ⟨f, hf, hmk⟩ := buildBlocks_mem hraw hb2
    obtain ⟨tr, rfl⟩ := mkBlock_shape hmk
    have hbody : containsTriple f.body = false := scanFencesAux_body hf
    have hcode : (blockFields f tr).code.toList = pyStrip f.body := rfl
    rw [hcode]
    exact containsTriple_pyStrip hbody
  · rfl

/-- Claim C5, witness: the general part applied to the parse of a concrete
document. -/
theorem claim_C5_witness :
    containsTriple (CodeBlock.mk (some "csharp") "foo bar" 1 [] [] []).code.toList
      = false :=
  claim_C5_amended.1 "```csharp @step1\n  foo bar \n```"
    (Document.mk none [⟨some "csharp", "foo bar", 1, [], [], []⟩])
    ⟨some "csharp", "foo bar", 1, [], [], []⟩ rfl (by decide)

/-- Claim C6: a fence with no language tag still yields a block, with
`language` absent (`None`) and its annotations extracted normally. -/
theorem claim_C6 :
    (∀ (content : String) (doc : Document),
        parse_markdown content = some doc →
        ∀ f ∈ scanFences content.toList,
          ∃ b ∈ doc.blocks, mkBlock f = some b ∧
            (f.lang = [] → b.language = none)) ∧
    parse_markdown "``` @step1\nplain text\n```" =
      some { title := none,
             blocks := [{ language := none, code := "plain text", step := 1,
                          highlights := [], transforms := [], isolate := [] }] } := by
  constructor
  · intro content doc hp f hf
    obtain ⟨raw, hraw, rfl⟩ := parse_markdown_eq hp
    obtain ⟨b, hb, hmk⟩ := buildBlocks_all hraw hf
    refine ⟨b, mem_sortBlocks.mpr hb, hmk, ?_⟩
    intro hlang
    obtain ⟨tr, rfl⟩ := mkBlock_shape hmk
    simp [blockFields, hlang]
  · rfl

/-- Claim C6, witness: the general part applied to a concrete languageless
fence. -/
theorem claim_C6_witness :
    ∃ b ∈ (Document.mk none
        [⟨none, "plain text", 1, [], [], []⟩]).blocks,
      mkBlock ⟨[], "@step1".toList, "plain text\n".toList⟩ = some b ∧
        (([] : List Char) = [] → b.language = none) :=
  claim_C6.1 "``` @step1\nplain text\n```"
    (Document.mk none [⟨none, "plain text", 1, [], [], []⟩]) rfl
    ⟨[], "@step1".toList, "plain text\n".toList⟩ (by decide)

/-- Claim C7: parsing the empty string returns a `Document` with absent title
and no blocks, without raising. -/
theorem claim_C7 : parse_markdown "" = some { title := none, blocks := [] } := rfl

/-- Claim C8: when the same tag appears more than once on a fence's
annotation line, the first occurrence wins: `re.search` returns the leftmost
match, so `@step` takes the value of the first `@step<digits>` occurrence
regardless of what follows; concretely, `@step1 @step2` gives step 1. -/
theorem claim_C8 :
    (∀ (ds1 ds2 rest : List Char), ds1 ≠ [] → (∀ c ∈ ds1, c.isDigit = true) →
        stepSearch ("@step".toList ++ (ds1 ++
            (' ' :: ("@step".toList ++ (ds2 ++ rest))))) =
          some (natOfDigits ds1)) ∧
    (parse_markdown "```c @step1 @step2\nx\n```").map
        (fun d => d.blocks.map (fun b => b.step)) = some [1] := by
  constructor
  · intro ds1 ds2 rest hne hds
    exact @stepSearch_head ds1 (' ' :: ("@step".toList ++ (ds2 ++ rest)))
      hne hds rfl
  · rfl

/-- Claim C8, witness: the general part at concrete digit strings. -/
theorem claim_C8_witness :
    stepSearch ("@step".toList ++ (['3'] ++
        (' ' :: ("@step".toList ++ (['7'] ++ []))))) = some (natOfDigits ['3']) :=
  claim_C8.1 ['3'] ['7'] [] (by decide) (by decide)

/-- Claim C9: the file locator builds its candidate list in exactly the
source's order — the path as given, its absolute form, joined to the current
working directory, joined to the script's directory, and `~`-expanded — and
returns the contents of the first candidate that is a readable file, `None`
when none is. -/
theorem claim_C9 :
    (∀ (env : PathEnv) (fp : String),
        search_paths env fp = [fp, env.abspath fp, env.joinPath env.cwd fp,
          env.joinPath env.scriptDir fp, env.expanduser fp]) ∧
    (∀ (env : PathEnv) (fs : String → Option String) (fp : String),
        (∀ p ∈ search_paths env fp, fs p = none) →
        load_markdown_file env fs fp = none) ∧
    (∀ (env : PathEnv) (fs : String → Option String) (fp : String)
        (ps1 ps2 : List String) (p c : String),
        search_paths env fp = ps1 ++ p :: ps2 →
        (∀ q ∈ ps1, fs q = none) → fs p = some c →
        load_markdown_file env fs fp = some c) := by
  refine ⟨fun env fp => rfl, ?_, ?_⟩
  · intro env fs fp h
    exact tryRead_none h
  · intro env fs fp ps1 ps2 p c hsp h1 h2
    rw [load_markdown_file, hsp]
    exact tryRead_first h1 h2

/-- Claim C9, witness: with a filesystem in which only the working-directory
candidate exists, the locator skips the first two candidates and returns its
contents; with an empty filesystem it reports absence. -/
theorem claim_C9_witness :
    load_markdown_file
        ⟨fun p => "/abs/" ++ p, "/cwd", "/scr", fun d q => d ++ "/" ++ q,
         fun p => "/home/" ++ p⟩
        (fun p => if p = "/cwd/x.md" then some "content" else none)
        "x.md" = some "content" ∧
    load_markdown_file
        ⟨fun p => "/abs/" ++ p, "/cwd", "/scr", fun d q => d ++ "/" ++ q,
         fun p => "/home/" ++ p⟩
        (fun _ => none) "x.md" = none :=
  ⟨claim_C9.2.2
      ⟨fun p => "/abs/" ++ p, "/cwd", "/scr", fun d q => d ++ "/" ++ q,
       fun p => "/home/" ++ p⟩
      (fun p => if p = "/cwd/x.md" then some "content" else none)
      "x.md" ["x.md", "/abs/x.md"] ["/scr/x.md", "/home/x.md"] "/cwd/x.md"
      "content" rfl (by decide) rfl,
   claim_C9.2.1
      ⟨fun p => "/abs/" ++ p, "/cwd", "/scr", fun d q => d ++ "/" ++ q,
       fun p => "/home/" ++ p⟩
      (fun _ => none) "x.md" (fun p _ => rfl)⟩

/-- Claim C10: the title search runs over the whole input without excluding
fence bodies — the returned title is always `pyTitle` of the full text — so a
`# ` heading inside a fence becomes the title, and since `\s+` also matches
newlines, a line consisting of `#` alone takes the next line's text as the
title. -/
theorem claim_C10 :
    (∀ (content : String) (doc : Document),
        parse_markdown content = some doc → doc.title = pyTitle content.toList) ∧
    (parse_markdown "```csharp @step1\n# Inside\ncode\n```").map
        (fun d => d.title) = some (some "Inside") ∧
    (parse_markdown "```csharp @step1\n# Inside\ncode\n```").map
        (fun d => d.blocks.map (fun b => b.code)) = some ["# Inside\ncode"] ∧
    (parse_markdown "#\nHello").map (fun d => d.title) = some (some "Hello") := by
  refine ⟨?_, rfl, rfl, rfl⟩
  intro content doc hp
  obtain ⟨raw, hraw, rfl⟩ := parse_markdown_eq hp
  rfl

/-- Claim C10, witness: the general part applied to a concrete parse. -/
theorem claim_C10_witness :
    (Document.mk (some "Hello") []).title = pyTitle "#\nHello".toList :=
  claim_C10.1 "#\nHello" (Document.mk (some "Hello") []) rfl
